import Mathlib

/-!
Verification of the shelter-core native layer (shelter.nvim).

The Rust sources `ffi.rs`, `types.rs` and `lib.rs` are embedded shallowly:
byte strings become `List Nat` (each element a byte value), Rust strings
become `List Char` (Unicode scalar values), raw pointers become `Option`,
and the C structs become Lean structures.  `lib.rs` declares a module
`masker` whose source file is not available; its four operations are
modelled from the specification (see the doc comments of `mask_full`,
`mask_partial`, `mask_fixed` and `mask_value`).  The external `korni`
tokenizer is out of scope for the design, so parsing is parameterized by
an arbitrary tokenizer function.
-/

/-! ### Line index: binary search (`offset_to_line_binary` in `ffi.rs`) -/

/-- Shallow embedding of Rust `slice::binary_search` specialised to `Nat`:
`left`/`right` delimit the half-open search window, `Except.ok i` means the
key was found at index `i`, `Except.error i` is the insertion point. -/
def binarySearchGo (xs : List Nat) (key left right : Nat) : Except Nat Nat :=
  if h : left < right then
    if xs.getD (left + (right - left) / 2) 0 < key then
      binarySearchGo xs key (left + (right - left) / 2 + 1) right
    else if key < xs.getD (left + (right - left) / 2) 0 then
      binarySearchGo xs key left (left + (right - left) / 2)
    else
      .ok (left + (right - left) / 2)
  else
    .error left
termination_by right - left
decreasing_by
  · omega
  · omega

/-- `offset_to_line_binary` from `ffi.rs`: binary search over the recorded
line starts; an exact hit at index `line` yields `line + 1`, a miss yields
the insertion point, i.e. the 1-based line containing the offset. -/
def offset_to_line_binary (line_starts : List Nat) (offset : Nat) : Nat :=
  match binarySearchGo line_starts offset 0 line_starts.length with
  | .ok line => line + 1
  | .error line => line

/-! ### Line index: construction (the scan in `shelter_parse`) -/

/-- The scan over the input bytes inside `shelter_parse`: starting at byte
index `i`, record `j + 1` for every byte index `j` holding a newline
(byte 10). -/
def lineStartsAux (bytes : List Nat) (i : Nat) : List Nat :=
  match bytes with
  | [] => []
  | b :: rest =>
    if b = 10 then (i + 1) :: lineStartsAux rest (i + 1)
    else lineStartsAux rest (i + 1)

/-- The `line_starts` vector built by `shelter_parse`: offset 0 first, then
one start immediately after every newline byte. -/
def buildLineStarts (bytes : List Nat) : List Nat :=
  0 :: lineStartsAux bytes 0

/-- Spec-side description of the tail of the line-start sequence: the
offsets immediately after every line-terminator byte, in left-to-right scan
order.  Used only to compare `buildLineStarts` against the specification's
wording. -/
def newlineStartsSpec (bytes : List Nat) : List Nat :=
  (List.range bytes.length).filterMap fun i =>
    if bytes.getD i 0 = 10 then some (i + 1) else none

/-! ### UTF-8 decoding (`std::str::from_utf8`) -/

/-- A UTF-8 continuation byte. -/
def utf8Cont (b : Nat) : Prop := 0x80 ≤ b ∧ b ≤ 0xBF

instance (b : Nat) : Decidable (utf8Cont b) := by
  unfold utf8Cont; infer_instance

/-- Extra constraint on the second byte of a three-byte sequence ruling out
overlong encodings (lead `0xE0`) and surrogates (lead `0xED`). -/
def utf8Valid3 (b0 b1 : Nat) : Prop := (b0 = 0xE0 → 0xA0 ≤ b1) ∧ (b0 = 0xED → b1 ≤ 0x9F)

instance (b0 b1 : Nat) : Decidable (utf8Valid3 b0 b1) := by
  unfold utf8Valid3; infer_instance

/-- Extra constraint on the second byte of a four-byte sequence ruling out
overlong encodings (lead `0xF0`) and scalar values above `0x10FFFF`
(lead `0xF4`). -/
def utf8Valid4 (b0 b1 : Nat) : Prop := (b0 = 0xF0 → 0x90 ≤ b1) ∧ (b0 = 0xF4 → b1 ≤ 0x8F)

instance (b0 b1 : Nat) : Decidable (utf8Valid4 b0 b1) := by
  unfold utf8Valid4; infer_instance

/-- Shallow embedding of `std::str::from_utf8`: decode a byte sequence into
Unicode scalar values, rejecting exactly the sequences Rust rejects
(truncated sequences, bad continuation bytes, overlong forms, surrogates,
values above `0x10FFFF`). -/
def utf8Decode : List Nat → Option (List Char)
  | [] => some []
  | b0 :: rest =>
    if b0 < 0x80 then
      (utf8Decode rest).map fun cs => Char.ofNat b0 :: cs
    else if 0xC2 ≤ b0 ∧ b0 ≤ 0xDF then
      match rest with
      | b1 :: rest2 =>
        if utf8Cont b1 then
          (utf8Decode rest2).map fun cs =>
            Char.ofNat ((b0 - 0xC0) * 0x40 + (b1 - 0x80)) :: cs
        else none
      | [] => none
    else if 0xE0 ≤ b0 ∧ b0 ≤ 0xEF then
      match rest with
      | b1 :: b2 :: rest3 =>
        if utf8Cont b1 ∧ utf8Cont b2 ∧ utf8Valid3 b0 b1 then
          (utf8Decode rest3).map fun cs =>
            Char.ofNat ((b0 - 0xE0) * 0x1000 + (b1 - 0x80) * 0x40 + (b2 - 0x80)) :: cs
        else none
      | _ => none
    else if 0xF0 ≤ b0 ∧ b0 ≤ 0xF4 then
      match rest with
      | b1 :: b2 :: b3 :: rest4 =>
        if utf8Cont b1 ∧ utf8Cont b2 ∧ utf8Cont b3 ∧ utf8Valid4 b0 b1 then
          (utf8Decode rest4).map fun cs =>
            Char.ofNat ((b0 - 0xF0) * 0x40000 + (b1 - 0x80) * 0x1000 +
              (b2 - 0x80) * 0x40 + (b3 - 0x80)) :: cs
        else none
      | _ => none
    else none

/-! ### C strings -/

/-- `CString::new` on a Rust string: fails (returns `none`) exactly when the
string contains a NUL byte; in UTF-8 a NUL byte occurs exactly as the
scalar value 0. -/
def cStringNew (s : List Char) : Option (List Char) :=
  if s.any fun c => c.toNat == 0 then none else some s

/-- `CString::new(..).unwrap_or_default()` as used by
`ShelterEntry::from_korni`: an interior NUL degrades to the empty string. -/
def cStringNewOrDefault (s : List Char) : List Char :=
  if s.any fun c => c.toNat == 0 then [] else s

/-- `CString::new(msg).unwrap_or_else(|| CString::new("Unknown error"))` as
used by `ShelterResult::err`. -/
def cStringErrMsg (msg : List Char) : List Char :=
  if msg.any fun c => c.toNat == 0 then String.toList "Unknown error" else msg

/-- `mask_char as u8 as char`: a C `char` argument reinterpreted as a byte
and widened to a Unicode scalar value. -/
def byteChar (b : Nat) : Char :=
  Char.ofNat (b % 256)

/-! ### The external `korni` tokenizer's data model (interface only) -/

/-- `korni::QuoteType`. -/
inductive QuoteType where
  | none
  | single
  | double
deriving DecidableEq, Repr

/-- `ShelterQuoteType::from` in `types.rs`, composed with the `as u8` cast. -/
def quoteTypeToU8 : QuoteType → Nat
  | .none => 0
  | .single => 1
  | .double => 2

/-- A byte span reported by the tokenizer (`s.start.offset` /
`s.end.offset`). -/
structure Span where
  startOffset : Nat
  endOffset : Nat
deriving DecidableEq, Repr

/-- `korni::KeyValuePair`, the fields read by `shelter-core`. -/
structure KeyValuePair where
  key : List Char
  value : List Char
  key_span : Option Span
  value_span : Option Span
  quote : QuoteType
  is_exported : Bool
  is_comment : Bool
deriving DecidableEq, Repr

/-- `korni::Entry`: one tokenizer output item. -/
inductive Entry where
  | pair (kv : KeyValuePair)
  | comment (text : List Char)
  | error (text : List Char)
deriving DecidableEq, Repr

/-- `korni::ParseOptions`. -/
structure ParseOptions where
  include_comments : Bool
  track_positions : Bool
deriving DecidableEq, Repr

/-! ### FFI-safe types (`types.rs`) -/

/-- `ShelterParseOptions` in `types.rs`: two `u8` switches. -/
structure ShelterParseOptions where
  include_comments : Nat
  track_positions : Nat
deriving DecidableEq, Repr

/-- `impl From<ShelterParseOptions> for korni::ParseOptions`. -/
def korniOptionsOf (opts : ShelterParseOptions) : ParseOptions :=
  { include_comments := opts.include_comments ≠ 0
    track_positions := opts.track_positions ≠ 0 }

/-- `ShelterEntry` in `types.rs`.  The `key`/`value` pointers carry the
C-string contents; lengths and offsets are `usize` fields; the three flag
bytes are `u8` values. -/
structure ShelterEntry where
  key : List Char
  key_len : Nat
  value : List Char
  value_len : Nat
  key_start : Nat
  key_end : Nat
  value_start : Nat
  value_end : Nat
  line_number : Nat
  value_end_line : Nat
  quote_type : Nat
  is_exported : Nat
  is_comment : Nat
deriving DecidableEq, Repr

/-- `ShelterEntry::from_korni` in `types.rs`: `key_len`/`value_len` are the
UTF-8 byte lengths of the tokenizer's strings, the C strings degrade to
empty on interior NUL, absent spans become `(0, 0)`. -/
def ShelterEntry.from_korni (kv : KeyValuePair) (line_number value_end_line : Nat) :
    ShelterEntry :=
  { key := cStringNewOrDefault kv.key
    key_len := (kv.key.map Char.utf8Size).sum
    value := cStringNewOrDefault kv.value
    value_len := (kv.value.map Char.utf8Size).sum
    key_start := (kv.key_span.map Span.startOffset).getD 0
    key_end := (kv.key_span.map Span.endOffset).getD 0
    value_start := (kv.value_span.map Span.startOffset).getD 0
    value_end := (kv.value_span.map Span.endOffset).getD 0
    line_number := line_number
    value_end_line := value_end_line
    quote_type := quoteTypeToU8 kv.quote
    is_exported := if kv.is_exported then 1 else 0
    is_comment := if kv.is_comment then 1 else 0 }

/-! ### Entry adapter (the loop in `shelter_parse`) -/

/-- The body of the `Entry::Pair` arm in `shelter_parse`: resolve the key
span's start to `line_number` (0 when the span is absent) and the value
span's end minus one byte to `value_end_line` (falling back to
`line_number`), then build the boundary entry. -/
def entryOfPair (kv : KeyValuePair) (line_starts : List Nat) : ShelterEntry :=
  let line_number :=
    match kv.key_span with
    | some s => offset_to_line_binary line_starts s.startOffset
    | none => 0
  let value_end_line :=
    match kv.value_span with
    | some s => offset_to_line_binary line_starts (s.endOffset - 1)
    | none => line_number
  ShelterEntry.from_korni kv line_number value_end_line

/-- The conversion loop of `shelter_parse`: pairs become entries, comment
items and tokenizer-level error items are skipped. -/
def convertEntries (parsed : List Entry) (line_starts : List Nat) : List ShelterEntry :=
  match parsed with
  | [] => []
  | .pair kv :: rest => entryOfPair kv line_starts :: convertEntries rest line_starts
  | .comment _ :: rest => convertEntries rest line_starts
  | .error _ :: rest => convertEntries rest line_starts

/-- The key/value pair items of a tokenizer output, in order. -/
def pairItems (parsed : List Entry) : List KeyValuePair :=
  parsed.filterMap fun e =>
    match e with
    | .pair kv => some kv
    | _ => none

/-! ### Parse result (`ShelterResult` in `types.rs`) -/

/-- `ShelterResult` in `types.rs`: `none` models a null pointer field. -/
structure ShelterResultC where
  entries : Option (List ShelterEntry)
  count : Nat
  line_offsets : Option (List Nat)
  line_count : Nat
  error : Option (List Char)
deriving DecidableEq, Repr

/-- `ShelterResult::ok`: an empty vector is handed over as a null pointer
with length 0. -/
def ShelterResultC.ok (entries : List ShelterEntry) (line_offsets : List Nat) :
    ShelterResultC :=
  { entries := if entries.isEmpty then none else some entries
    count := entries.length
    line_offsets := if line_offsets.isEmpty then none else some line_offsets
    line_count := line_offsets.length
    error := none }

/-- `ShelterResult::err`: all payload fields null/zero, the error string
set (degrading to `"Unknown error"` on interior NUL). -/
def ShelterResultC.err (message : List Char) : ShelterResultC :=
  { entries := none
    count := 0
    line_offsets := none
    line_count := 0
    error := some (cStringErrMsg message) }

/-- `shelter_parse` in `ffi.rs`, parameterized by the external tokenizer
`tok` (`korni::parse_with_options`): a null input pointer or invalid UTF-8
yields an error-state result; otherwise the tokenizer's items are adapted
and returned together with the line-start index built over the input
bytes. -/
def shelter_parse (tok : List Char → ParseOptions → List Entry)
    (input : Option (List Nat)) (options : ShelterParseOptions) : ShelterResultC :=
  match input with
  | none => ShelterResultC.err (String.toList "Input is null")
  | some bytes =>
    match utf8Decode bytes with
    | none => ShelterResultC.err (String.toList "Invalid UTF-8")
    | some input_str =>
      let parsed_entries := tok input_str (korniOptionsOf options)
      let line_starts := buildLineStarts bytes
      ShelterResultC.ok (convertEntries parsed_entries line_starts) line_starts

/-- The success state of a parse result: no error string. -/
def okState (r : ShelterResultC) : Prop := r.error = none

/-- The error state of a parse result: an error string and no payload. -/
def errState (r : ShelterResultC) : Prop :=
  r.error ≠ none ∧ r.entries = none ∧ r.count = 0 ∧
    r.line_offsets = none ∧ r.line_count = 0

/-! ### Release protocol (`shelter_free_result` in `ffi.rs`) -/

/-- The raw view of one entry as `shelter_free_result` reads it: only the
nullness of the two owned string pointers matters for reclamation. -/
structure RawEntry where
  keyNull : Bool
  valueNull : Bool
deriving DecidableEq, Repr

/-- The raw view of a `ShelterResult` as `shelter_free_result` reads it:
pointer nullness, the recorded lengths, and the entry contents behind the
entries pointer. -/
structure RawResult where
  entriesNull : Bool
  entriesMem : List RawEntry
  count : Nat
  lineOffsetsNull : Bool
  line_count : Nat
  errorNull : Bool
deriving DecidableEq, Repr

/-- One reclamation performed by `shelter_free_result`. -/
inductive FreeAction where
  | container
  | entriesArray
  | keyString (i : Nat)
  | valueString (i : Nat)
  | lineOffsetsArray
  | errorString
deriving DecidableEq, Repr

/-- The per-entry loop of `shelter_free_result`: each entry's key and value
strings are reclaimed when their pointers are non-null. -/
def freeEntries (entries : List RawEntry) (i : Nat) : List FreeAction :=
  match entries with
  | [] => []
  | e :: rest =>
    (if e.keyNull then [] else [FreeAction.keyString i]) ++
      (if e.valueNull then [] else [FreeAction.valueString i]) ++
      freeEntries rest (i + 1)

/-- `shelter_free_result` in `ffi.rs` as the sequence of reclamations it
performs: nothing on a null handle; otherwise the entry strings and the
entries array when the pointer is non-null and `count > 0` (the
`Vec::from_raw_parts` reads back `count` elements), the line-offsets array
when non-null and `line_count > 0`, the error string when non-null, and
finally the container box itself. -/
def shelter_free_result (result : Option RawResult) : List FreeAction :=
  match result with
  | none => []
  | some r =>
    (if ¬r.entriesNull ∧ 0 < r.count then
        freeEntries (r.entriesMem.take r.count) 0 ++ [FreeAction.entriesArray]
      else []) ++
      (if ¬r.lineOffsetsNull ∧ 0 < r.line_count then [FreeAction.lineOffsetsArray] else []) ++
      (if ¬r.errorNull then [FreeAction.errorString] else []) ++
      [FreeAction.container]

/-! ### Masking engine (module `masker`, source file not provided) -/

/-- Modelled from the spec: `lib.rs` declares `mod masker` but `masker.rs`
is not among the provided sources.  §4.3: `mask_full(value, mask_char)`
replaces every character with `mask_char`; the call sites in `ffi.rs` pass
an additional always-`None` length argument, modelled as an optional fixed
output length. -/
def mask_full (value : List Char) (mask_char : Char) (length? : Option Nat) : List Char :=
  match length? with
  | some n => List.replicate n mask_char
  | none => value.map fun _ => mask_char

/-- Modelled from the spec: `masker::mask_partial` is not among the
provided sources.  §4.3: preserve the first `show_start` and last
`show_end` characters and replace the middle with `mask_char`; when the
middle (`len - show_start - show_end`) is shorter than `min_mask` or
`show_start + show_end ≥ len`, fall back to full masking.  The call site
passes an additional always-`None` length argument, forwarded to the
full-mask fallback. -/
def mask_partial (value : List Char) (mask_char : Char)
    (show_start show_end min_mask : Nat) (length? : Option Nat) : List Char :=
  if value.length - show_start - show_end < min_mask ∨
      value.length ≤ show_start + show_end then
    mask_full value mask_char length?
  else
    value.take show_start ++
      List.replicate (value.length - show_start - show_end) mask_char ++
      value.drop (value.length - show_end)

/-- Modelled from the spec: `masker::mask_fixed` is not among the provided
sources.  §4.3: return `output_len` copies of `mask_char`, ignoring the
input; `output_len = 0` falls back to the input's character length. -/
def mask_fixed (value : List Char) (mask_char : Char) (output_len : Nat) : List Char :=
  if output_len = 0 then List.replicate value.length mask_char
  else List.replicate output_len mask_char

/-- `ShelterMaskOptions` in `types.rs` (`mask_char` is a C `char`, modelled
as its byte value). -/
structure ShelterMaskOptions where
  mask_char : Nat
  mask_length : Nat
  mode : Nat
  show_start : Nat
  show_end : Nat
  min_mask : Nat
deriving DecidableEq, Repr

/-- Modelled from the spec: `masker::mask_value` is not among the provided
sources.  §4.3: dispatch on `options.mode`; mode 0 (full) uses the
fixed-length path when `options.mask_length` is nonzero and the natural
full mask otherwise; any other mode uses the partial path with
`options.show_start`, `options.show_end`, `options.min_mask`. -/
def mask_value (value : List Char) (options : ShelterMaskOptions) : List Char :=
  if options.mode = 0 then
    if options.mask_length ≠ 0 then
      mask_fixed value (byteChar options.mask_char) options.mask_length
    else
      mask_full value (byteChar options.mask_char) none
  else
    mask_partial value (byteChar options.mask_char)
      options.show_start options.show_end options.min_mask none

/-! ### Masking FFI wrappers (`ffi.rs`) -/

/-- `shelter_mask_full` in `ffi.rs`: null pointer or invalid UTF-8 yields
null; otherwise the mask output is handed over as a C string, degrading to
null when it contains a NUL byte. -/
def shelter_mask_full (value : Option (List Nat)) (mask_char : Nat) :
    Option (List Char) :=
  match value with
  | none => none
  | some bytes =>
    match utf8Decode bytes with
    | none => none
    | some value_str => cStringNew (mask_full value_str (byteChar mask_char) none)

/-- `shelter_mask_partial` in `ffi.rs`. -/
def shelter_mask_partial (value : Option (List Nat)) (mask_char : Nat)
    (show_start show_end min_mask : Nat) : Option (List Char) :=
  match value with
  | none => none
  | some bytes =>
    match utf8Decode bytes with
    | none => none
    | some value_str =>
      cStringNew
        ( mask_partial value_str (byteChar mask_char) show_start show_end min_mask none)

/-- `shelter_mask_fixed` in `ffi.rs`. -/
def shelter_mask_fixed (value : Option (List Nat)) (mask_char : Nat)
    (output_len : Nat) : Option (List Char) :=
  match value with
  | none => none
  | some bytes =>
    match utf8Decode bytes with
    | none => none
    | some value_str => cStringNew (mask_fixed value_str (byteChar mask_char) output_len)

/-- `shelter_mask_value` in `ffi.rs`. -/
def shelter_mask_value (value : Option (List Nat)) (options : ShelterMaskOptions) :
    Option (List Char) :=
  match value with
  | none => none
  | some bytes =>
    match utf8Decode bytes with
    | none => none
    | some value_str => cStringNew (mask_value value_str options)

/-! ## Helper lemmas -/

/-- Strictly sorted lists have strictly increasing entries (in `getD`
form). -/
lemma sorted_getD_lt {xs : List Nat} (hs : List.Sorted (· < ·) xs)
    {i j : Nat} (hij : i < j) (hj : j < xs.length) :
    xs.getD i 0 < xs.getD j 0 := by
  have hi : i < xs.length := lt_trans hij hj
  rw [List.getD_eq_get xs 0 hi, List.getD_eq_get xs 0 hj]
  exact hs.rel_get_of_lt (show (⟨i, hi⟩ : Fin xs.length) < ⟨j, hj⟩ from hij)

/-- Correctness of the embedded `slice::binary_search` loop on a strictly
sorted list: a hit returns an index holding the key; a miss returns the
insertion point, i.e. everything before it is below the key and everything
from it on is above. -/
lemma binarySearchGo_spec {xs : List Nat} (hs : List.Sorted (· < ·) xs) (key : Nat) :
    ∀ n left right, right - left ≤ n → left ≤ right → right ≤ xs.length →
    (∀ j, j < left → xs.getD j 0 < key) →
    (∀ j, right ≤ j → j < xs.length → key < xs.getD j 0) →
    match binarySearchGo xs key left right with
    | .ok i => i < xs.length ∧ xs.getD i 0 = key
    | .error i =>
        (∀ j, j < i → xs.getD j 0 < key) ∧
        (∀ j, i ≤ j → j < xs.length → key < xs.getD j 0) ∧
        i ≤ xs.length := by
  intro n
  induction n with
  | zero =>
    intro left right hn hlr hrlen hlo hhi
    have hltr : ¬ left < right := by omega
    rw [binarySearchGo, dif_neg hltr]
    exact ⟨hlo, fun j hij hjlen => hhi j (by omega) hjlen, by omega⟩
  | succ n ih =>
    intro left right hn hlr hrlen hlo hhi
    by_cases hltr : left < right
    · rw [binarySearchGo, dif_pos hltr]
      have hmidlt : left + (right - left) / 2 < right := by omega
      have hmidlen : left + (right - left) / 2 < xs.length := by omega
      by_cases h1 : xs.getD (left + (right - left) / 2) 0 < key
      · rw [if_pos h1]
        apply ih (left + (right - left) / 2 + 1) right (by omega) (by omega) hrlen
        · intro j hj
          rcases Nat.lt_or_ge j left with hl | hl
          · exact hlo j hl
          · rcases Nat.lt_or_eq_of_le (Nat.lt_succ_iff.mp hj) with hjm | hjm
            · exact lt_trans (sorted_getD_lt hs hjm hmidlen) h1
            · rw [hjm]; exact h1
        · exact hhi
      · rw [if_neg h1]
        by_cases h2 : key < xs.getD (left + (right - left) / 2) 0
        · rw [if_pos h2]
          apply ih left (left + (right - left) / 2) (by omega) (by omega) (by omega) hlo
          intro j hmj hjlen
          rcases Nat.lt_or_eq_of_le hmj with hmj' | hmj'
          · exact lt_trans h2 (sorted_getD_lt hs hmj' hjlen)
          · rw [← hmj']; exact h2
        · rw [if_neg h2]
          exact ⟨hmidlen, by omega⟩
    · rw [binarySearchGo, dif_neg hltr]
      exact ⟨hlo, fun j hij hjlen => hhi j (by omega) hjlen, by omega⟩

/-- A boundary characterization of `countP`: if a predicate holds for
exactly the first `m` positions, the count is `m`. -/
lemma countP_eq_boundary (p : Nat → Bool) :
    ∀ (xs : List Nat) (m : Nat), m ≤ xs.length →
    (∀ j, j < m → p (xs.getD j 0) = true) →
    (∀ j, m ≤ j → j < xs.length → p (xs.getD j 0) = false) →
    xs.countP p = m := by
  intro xs
  induction xs with
  | nil =>
    intro m hm _ _
    simp only [List.length_nil, Nat.le_zero] at hm
    simp [hm]
  | cons x rest ih =>
    intro m hm h1 h2
    rw [List.countP_cons]
    cases m with
    | zero =>
      have hx : p x = false := by
        have := h2 0 (by omega) (by simp)
        simpa using this
      rw [hx]
      have hrest : rest.countP p = 0 := by
        apply ih 0 (by omega) (by omega)
        intro j _ hjlen
        have := h2 (j + 1) (by omega) (by simpa using Nat.succ_lt_succ hjlen)
        simpa using this
      simpa using hrest
    | succ m' =>
      have hx : p x = true := by
        have := h1 0 (by omega)
        simpa using this
      rw [hx]
      have hrest : rest.countP p = m' := by
        apply ih m' (by simpa using hm)
        · intro j hj
          have := h1 (j + 1) (by omega)
          simpa using this
        · intro j hj hjlen
          have := h2 (j + 1) (by omega) (by simpa using Nat.succ_lt_succ hjlen)
          simpa using this
      simp [hrest]

/-- On a strictly sorted list, `offset_to_line_binary` counts the recorded
starts that do not exceed the queried offset. -/
lemma offset_to_line_eq_countP {xs : List Nat} (hs : List.Sorted (· < ·) xs)
    (key : Nat) :
    offset_to_line_binary xs key = xs.countP fun x => decide (x ≤ key) := by
  have h := binarySearchGo_spec hs key xs.length 0 xs.length (by omega) (by omega)
    (le_refl _) (fun j hj => absurd hj (Nat.not_lt_zero j))
    (fun j hj hjlen => absurd (lt_of_le_of_lt hj hjlen) (lt_irrefl _))
  unfold offset_to_line_binary
  cases hbs : binarySearchGo xs key 0 xs.length with
  | ok i =>
    rw [hbs] at h
    obtain ⟨hilen, hikey⟩ := h
    symm
    apply countP_eq_boundary _ xs (i + 1) (by omega)
    · intro j hj
      simp only [decide_eq_true_eq]
      rcases Nat.lt_or_eq_of_le (Nat.lt_succ_iff.mp hj) with hji | hji
      · exact le_of_lt (lt_of_lt_of_le (sorted_getD_lt hs hji hilen) (le_of_eq hikey))
      · rw [hji, hikey]
    · intro j hij hjlen
      simp only [decide_eq_false_iff_not, not_le]
      exact lt_of_le_of_lt (le_of_eq hikey.symm) (sorted_getD_lt hs hij hjlen)
  | error i =>
    rw [hbs] at h
    obtain ⟨hbelow, habove, hile⟩ := h
    symm
    apply countP_eq_boundary _ xs i hile
    · intro j hj
      simp only [decide_eq_true_eq]
      exact le_of_lt (hbelow j hj)
    · intro j hij hjlen
      simp only [decide_eq_false_iff_not, not_le]
      exact habove j hij hjlen

/-- Every start recorded by the scan from position `i` lies strictly
beyond `i`. -/
lemma lineStartsAux_bound :
    ∀ (bytes : List Nat) (i : Nat), ∀ x ∈ lineStartsAux bytes i, i < x := by
  intro bytes
  induction bytes with
  | nil => intro i x hx; simp [lineStartsAux] at hx
  | cons b rest ih =>
    intro i x hx
    rw [lineStartsAux] at hx
    by_cases hb : b = 10
    · rw [if_pos hb] at hx
      rcases List.mem_cons.mp hx with h | h
      · omega
      · have := ih (i + 1) x h
        omega
    · rw [if_neg hb] at hx
      have := ih (i + 1) x hx
      omega

/-- The scan records starts in strictly increasing order. -/
lemma lineStartsAux_sorted :
    ∀ (bytes : List Nat) (i : Nat), List.Sorted (· < ·) (lineStartsAux bytes i) := by
  intro bytes
  induction bytes with
  | nil => intro i; simp [lineStartsAux]
  | cons b rest ih =>
    intro i
    rw [lineStartsAux]
    by_cases hb : b = 10
    · rw [if_pos hb]
      refine List.sorted_cons.mpr ⟨?_, ih (i + 1)⟩
      intro x hx
      exact lineStartsAux_bound rest (i + 1) x hx
    · rw [if_neg hb]
      exact ih (i + 1)

/-- The line-start index built by `shelter_parse` is strictly sorted. -/
lemma buildLineStarts_sorted (bytes : List Nat) :
    List.Sorted (· < ·) (buildLineStarts bytes) := by
  rw [buildLineStarts]
  refine List.sorted_cons.mpr ⟨?_, lineStartsAux_sorted bytes 0⟩
  intro x hx
  exact lineStartsAux_bound bytes 0 x hx

/-- Resolving a recorded start returns its 1-based index. -/
lemma offset_to_line_getD {xs : List Nat} (hs : List.Sorted (· < ·) xs)
    {i : Nat} (hi : i < xs.length) :
    offset_to_line_binary xs (xs.getD i 0) = i + 1 := by
  rw [offset_to_line_eq_countP hs]
  apply countP_eq_boundary _ xs (i + 1) (by omega)
  · intro j hj
    simp only [decide_eq_true_eq]
    rcases Nat.lt_or_eq_of_le (Nat.lt_succ_iff.mp hj) with hji | hji
    · exact le_of_lt (sorted_getD_lt hs hji hi)
    · rw [hji]
  · intro j hij hjlen
    simp only [decide_eq_false_iff_not, not_le]
    exact sorted_getD_lt hs hij hjlen

/-- Resolving an offset strictly between two consecutive recorded starts
returns the line of the earlier start. -/
lemma offset_to_line_between {xs : List Nat} (hs : List.Sorted (· < ·) xs)
    {i off : Nat} (hi : i + 1 < xs.length)
    (h1 : xs.getD i 0 < off) (h2 : off < xs.getD (i + 1) 0) :
    offset_to_line_binary xs off = i + 1 := by
  rw [offset_to_line_eq_countP hs]
  apply countP_eq_boundary _ xs (i + 1) (by omega)
  · intro j hj
    simp only [decide_eq_true_eq]
    rcases Nat.lt_or_eq_of_le (Nat.lt_succ_iff.mp hj) with hji | hji
    · exact le_of_lt (lt_trans (sorted_getD_lt hs hji (by omega)) h1)
    · rw [hji]; exact le_of_lt h1
  · intro j hij hjlen
    simp only [decide_eq_false_iff_not, not_le]
    rcases Nat.lt_or_eq_of_le hij with hij' | hij'
    · exact lt_trans h2 (sorted_getD_lt hs hij' hjlen)
    · rw [← hij']; exact h2

/-- `offset_to_line_binary` is monotone in the queried offset on a sorted
index. -/
lemma offset_to_line_mono {xs : List Nat} (hs : List.Sorted (· < ·) xs)
    {a b : Nat} (hab : a ≤ b) :
    offset_to_line_binary xs a ≤ offset_to_line_binary xs b := by
  rw [offset_to_line_eq_countP hs, offset_to_line_eq_countP hs]
  apply List.countP_mono_left
  intro x _ hx
  simp only [decide_eq_true_eq] at hx ⊢
  omega

/-- The scan equals the specification's left-to-right description of the
line starts after position `k`. -/
lemma lineStartsAux_eq_spec :
    ∀ (bytes : List Nat) (k : Nat),
      lineStartsAux bytes k = (List.range bytes.length).filterMap fun i =>
        if bytes.getD i 0 = 10 then some (k + i + 1) else none := by
  intro bytes
  induction bytes with
  | nil => intro k; simp [lineStartsAux]
  | cons b rest ih =>
    intro k
    rw [lineStartsAux]
    have hr : List.range (b :: rest).length = 0 :: (List.range rest.length).map Nat.succ := by
      rw [List.length_cons]
      exact List.range_succ_eq_map rest.length
    rw [hr, List.filterMap_cons, List.filterMap_map]
    have harg :
        ((fun i => if (b :: rest).getD i 0 = 10 then some (k + i + 1) else none) ∘ Nat.succ) =
          fun i => if rest.getD i 0 = 10 then some ((k + 1) + i + 1) else none := by
      funext i
      simp only [Function.comp_apply, List.getD_cons_succ]
      by_cases h : rest.getD i 0 = 10
      · rw [if_pos h, if_pos h]
        congr 1
        omega
      · rw [if_neg h, if_neg h]
    rw [harg, ← ih (k + 1)]
    simp only [List.getD_cons_zero]
    by_cases hb : b = 10
    · rw [if_pos hb, if_pos hb]
    · rw [if_neg hb, if_neg hb]

/-- A scan over newline-free bytes records nothing. -/
lemma lineStartsAux_eq_nil :
    ∀ (bytes : List Nat) (k : Nat), (∀ b ∈ bytes, b ≠ 10) →
      lineStartsAux bytes k = [] := by
  intro bytes
  induction bytes with
  | nil => intro k _; simp [lineStartsAux]
  | cons b rest ih =>
    intro k h
    rw [lineStartsAux, if_neg (h b (by simp))]
    exact ih (k + 1) fun x hx => h x (List.mem_cons_of_mem b hx)

/-- Every action emitted by the per-entry reclamation loop is a key or
value string at an index at or beyond the loop counter. -/
lemma mem_freeEntries_shape :
    ∀ (l : List RawEntry) (k : Nat) (a : FreeAction), a ∈ freeEntries l k →
      ∃ i, k ≤ i ∧ (a = FreeAction.keyString i ∨ a = FreeAction.valueString i) := by
  intro l
  induction l with
  | nil => intro k a ha; simp [freeEntries] at ha
  | cons e rest ih =>
    intro k a ha
    rw [freeEntries] at ha
    rcases List.mem_append.mp ha with h | h
    · rcases List.mem_append.mp h with h' | h'
      · by_cases hk : e.keyNull
        · rw [if_pos hk] at h'; simp at h'
        · rw [if_neg hk] at h'
          exact ⟨k, le_refl k, Or.inl (List.mem_singleton.mp h')⟩
      · by_cases hv : e.valueNull
        · rw [if_pos hv] at h'; simp at h'
        · rw [if_neg hv] at h'
          exact ⟨k, le_refl k, Or.inr (List.mem_singleton.mp h')⟩
    · obtain ⟨i, hi, hor⟩ := ih (k + 1) a h
      exact ⟨i, by omega, hor⟩

/-- Key strings below the loop counter are never reclaimed by the loop. -/
lemma count_freeEntries_key_lt (l : List RawEntry) (k i : Nat) (h : i < k) :
    (freeEntries l k).count (FreeAction.keyString i) = 0 := by
  rw [List.count_eq_zero]
  intro hmem
  obtain ⟨j, hj, hor⟩ := mem_freeEntries_shape l k _ hmem
  rcases hor with h' | h' <;> simp at h' <;> omega

/-- Value strings below the loop counter are never reclaimed by the loop. -/
lemma count_freeEntries_value_lt (l : List RawEntry) (k i : Nat) (h : i < k) :
    (freeEntries l k).count (FreeAction.valueString i) = 0 := by
  rw [List.count_eq_zero]
  intro hmem
  obtain ⟨j, hj, hor⟩ := mem_freeEntries_shape l k _ hmem
  rcases hor with h' | h' <;> simp at h' <;> omega

/-- The loop reclaims the key string of the entry at relative index `j`
exactly once when its pointer is non-null, never otherwise. -/
lemma count_freeEntries_key :
    ∀ (l : List RawEntry) (k j : Nat), j < l.length →
      (freeEntries l k).count (FreeAction.keyString (k + j)) =
        if (l.getD j ⟨true, true⟩).keyNull then 0 else 1 := by
  intro l
  induction l with
  | nil => intro k j hj; simp at hj
  | cons e rest ih =>
    intro k j hj
    rw [freeEntries, List.count_append, List.count_append]
    cases j with
    | zero =>
      have hrest : (freeEntries rest (k + 1)).count (FreeAction.keyString (k + 0)) = 0 :=
        count_freeEntries_key_lt rest (k + 1) (k + 0) (by omega)
      rw [hrest]
      by_cases hk : e.keyNull <;> by_cases hv : e.valueNull <;>
        simp [hk, hv, List.count_cons]
    | succ j' =>
      have harith : k + (j' + 1) = (k + 1) + j' := by omega
      rw [harith, ih (k + 1) j' (by simpa using Nat.lt_of_succ_lt_succ hj)]
      have h1 : (if e.keyNull then ([] : List FreeAction)
          else [FreeAction.keyString k]).count (FreeAction.keyString (k + 1 + j')) = 0 := by
        by_cases hk : e.keyNull <;> simp [hk, List.count_cons] <;> omega
      have h2 : (if e.valueNull then ([] : List FreeAction)
          else [FreeAction.valueString k]).count (FreeAction.keyString (k + 1 + j')) = 0 := by
        by_cases hv : e.valueNull <;> simp [hv, List.count_cons]
      rw [h1, h2]
      simp [List.getD_cons_succ]

/-- The loop reclaims the value string of the entry at relative index `j`
exactly once when its pointer is non-null, never otherwise. -/
lemma count_freeEntries_value :
    ∀ (l : List RawEntry) (k j : Nat), j < l.length →
      (freeEntries l k).count (FreeAction.valueString (k + j)) =
        if (l.getD j ⟨true, true⟩).valueNull then 0 else 1 := by
  intro l
  induction l with
  | nil => intro k j hj; simp at hj
  | cons e rest ih =>
    intro k j hj
    rw [freeEntries, List.count_append, List.count_append]
    cases j with
    | zero =>
      have hrest : (freeEntries rest (k + 1)).count (FreeAction.valueString (k + 0)) = 0 :=
        count_freeEntries_value_lt rest (k + 1) (k + 0) (by omega)
      rw [hrest]
      by_cases hk : e.keyNull <;> by_cases hv : e.valueNull <;>
        simp [hk, hv, List.count_cons]
    | succ j' =>
      have harith : k + (j' + 1) = (k + 1) + j' := by omega
      rw [harith, ih (k + 1) j' (by simpa using Nat.lt_of_succ_lt_succ hj)]
      have h1 : (if e.keyNull then ([] : List FreeAction)
          else [FreeAction.keyString k]).count (FreeAction.valueString (k + 1 + j')) = 0 := by
        by_cases hk : e.keyNull <;> simp [hk, List.count_cons]
      have h2 : (if e.valueNull then ([] : List FreeAction)
          else [FreeAction.valueString k]).count (FreeAction.valueString (k + 1 + j')) = 0 := by
        by_cases hv : e.valueNull <;> simp [hv, List.count_cons] <;> omega
      rw [h1, h2]
      simp [List.getD_cons_succ]

/-- A nonempty run of NUL characters is detected by the NUL scan. -/
lemma any_nul_replicate (n : Nat) (h : 0 < n) :
    (List.replicate n (Char.ofNat 0)).any (fun c => c.toNat == 0) = true := by
  cases n with
  | zero => omega
  | succ m =>
    rw [List.replicate_succ, List.any_cons]
    have : ((Char.ofNat 0).toNat == 0) = true := by decide
    rw [this, Bool.true_or]

/-- Fully masking a nonempty string with the NUL character puts a NUL byte
in the output. -/
lemma mask_full_nul {s : List Char} (hs : s ≠ []) :
    (mask_full s (Char.ofNat 0) none).any (fun c => c.toNat == 0) = true := by
  cases s with
  | nil => exact absurd rfl hs
  | cons c rest =>
    rw [mask_full]
    rw [List.map_cons, List.any_cons]
    have : ((Char.ofNat 0).toNat == 0) = true := by decide
    rw [this, Bool.true_or]

/-- Fixed-length masking of a nonempty string with the NUL character puts
a NUL byte in the output. -/
lemma mask_fixed_nul {s : List Char} (n : Nat) (hs : s ≠ []) :
    (mask_fixed s (Char.ofNat 0) n).any (fun c => c.toNat == 0) = true := by
  rw [mask_fixed]
  by_cases hn : n = 0
  · rw [if_pos hn]
    apply any_nul_replicate
    cases s with
    | nil => exact absurd rfl hs
    | cons c rest => simp
  · rw [if_neg hn]
    exact any_nul_replicate n (by omega)

/-- Partial masking of a nonempty string with the NUL character puts a NUL
byte in the output (either through the full-mask fallback or through the
nonempty masked middle). -/
lemma mask_partial_nul {s : List Char} (ss se mm : Nat) (hs : s ≠ []) :
    ( mask_partial s (Char.ofNat 0) ss se mm none).any (fun c => c.toNat == 0) = true := by
  unfold mask_partial
  by_cases hcond : s.length - ss - se < mm ∨ s.length ≤ ss + se
  · rw [if_pos hcond]
    exact mask_full_nul hs
  · rw [if_neg hcond]
    push_neg at hcond
    rw [List.any_append, List.any_append]
    have hmid : (List.replicate (s.length - ss - se) (Char.ofNat 0)).any
        (fun c => c.toNat == 0) = true :=
      any_nul_replicate _ (by omega)
    rw [hmid, Bool.or_true, Bool.true_or]

/-- A mask output containing a NUL byte fails the C-string conversion. -/
lemma cStringNew_eq_none {s : List Char}
    (h : s.any (fun c => c.toNat == 0) = true) : cStringNew s = none := by
  rw [cStringNew, if_pos h]

/-- `getD` looks through `take` within bounds. -/
lemma getD_take_eq {α} (l : List α) (n i : Nat) (d : α) (h : i < n) (hl : i < l.length) :
    (l.take n).getD i d = l.getD i d := by
  have hlen : i < (l.take n).length := by
    rw [List.length_take]
    omega
  rw [List.getD_eq_getElem _ _ hlen, List.getD_eq_getElem _ _ hl]
  exact List.getElem_take l

/-- `getD` on an append, index within the left part. -/
lemma getD_append_left {α} (l l' : List α) (i : Nat) (d : α) (h : i < l.length) :
    (l ++ l').getD i d = l.getD i d := by
  have hlen : i < (l ++ l').length := by
    rw [List.length_append]
    omega
  rw [List.getD_eq_getElem _ _ hlen, List.getD_eq_getElem _ _ h]
  exact List.getElem_append_left h

/-- `getD` on an append, index within the right part. -/
lemma getD_append_right {α} (l l' : List α) (i : Nat) (d : α)
    (h : l.length ≤ i) (h2 : i < l.length + l'.length) :
    (l ++ l').getD i d = l'.getD (i - l.length) d := by
  have hlen : i < (l ++ l').length := by
    rw [List.length_append]
    omega
  rw [List.getD_eq_getElem _ _ hlen, List.getD_eq_getElem _ _ (by omega)]
  exact List.getElem_append_right h

/-- `getD` looks through `drop` within bounds. -/
lemma getD_drop_eq {α} (l : List α) (n j : Nat) (d : α) (h : n + j < l.length) :
    (l.drop n).getD j d = l.getD (n + j) d := by
  have hlen : j < (l.drop n).length := by
    rw [List.length_drop]
    omega
  rw [List.getD_eq_getElem _ _ hlen, List.getD_eq_getElem _ _ h]
  exact List.getElem_drop l

/-- `getD` on `replicate` within bounds. -/
lemma getD_replicate_eq {α} (m : Nat) (a : α) (i : Nat) (d : α) (h : i < m) :
    (List.replicate m a).getD i d = a := by
  have hlen : i < (List.replicate m a).length := by
    rw [List.length_replicate]
    omega
  rw [List.getD_eq_getElem _ _ hlen]
  exact List.getElem_replicate a hlen

/-- The byte 0 reinterprets to the NUL character. -/
lemma byteChar_zero : byteChar 0 = Char.ofNat 0 := rfl

/-- Dispatched masking of a nonempty string with the NUL mask character
puts a NUL byte in the output whichever mode is selected. -/
lemma mask_value_nul {s : List Char} (opts : ShelterMaskOptions) (hs : s ≠ [])
    (hmc : opts.mask_char = 0) :
    (mask_value s opts).any (fun c => c.toNat == 0) = true := by
  rw [mask_value, hmc, byteChar_zero]
  by_cases hm : opts.mode = 0
  · rw [if_pos hm]
    by_cases hl : opts.mask_length ≠ 0
    · rw [if_pos hl]
      exact mask_fixed_nul _ hs
    · rw [if_neg hl]
      exact mask_full_nul hs
  · rw [if_neg hm]
    exact mask_partial_nul _ _ _ hs

/-! ## Claims -/

/-- C1: for every text, `resolve` over the built line index returns the
1-based line of the greatest recorded start not exceeding the offset:
offset 0 resolves to line 1, the recorded start at 0-based index `i`
resolves to line `i + 1`, and an offset strictly between two consecutive
recorded starts resolves to the line of the nearest start not exceeding
it. -/
theorem claim1_resolve_build (bytes : List Nat) :
    offset_to_line_binary (buildLineStarts bytes) 0 = 1 ∧
    (∀ i, i < (buildLineStarts bytes).length →
      offset_to_line_binary (buildLineStarts bytes)
        ((buildLineStarts bytes).getD i 0) = i + 1) ∧
    (∀ i off, i + 1 < (buildLineStarts bytes).length →
      (buildLineStarts bytes).getD i 0 < off →
      off < (buildLineStarts bytes).getD (i + 1) 0 →
      offset_to_line_binary (buildLineStarts bytes) off = i + 1) := by
  have hs := buildLineStarts_sorted bytes
  refine ⟨?_, ?_, ?_⟩
  · have hlen : 0 < (buildLineStarts bytes).length := by
      rw [buildLineStarts]
      exact Nat.succ_pos _
    have h := offset_to_line_getD hs hlen
    have h0 : (buildLineStarts bytes).getD 0 0 = 0 := rfl
    rw [h0] at h
    exact h
  · intro i hi
    exact offset_to_line_getD hs hi
  · intro i off hi h1 h2
    exact offset_to_line_between hs hi h1 h2

/-- C1 witness: over the text `"a\nb\n"` (bytes `[97, 10, 98, 10]`, line
starts `[0, 2, 4]`), offset 0 resolves to line 1, the start at index 1
resolves to line 2, and offset 1 (strictly between the starts 0 and 2)
resolves to line 1. -/
theorem claim1_resolve_build_witness :
    offset_to_line_binary (buildLineStarts [97, 10, 98, 10]) 0 = 1 ∧
    offset_to_line_binary (buildLineStarts [97, 10, 98, 10])
      ((buildLineStarts [97, 10, 98, 10]).getD 1 0) = 2 ∧
    offset_to_line_binary (buildLineStarts [97, 10, 98, 10]) 1 = 1 :=
  ⟨(claim1_resolve_build [97, 10, 98, 10]).1,
    (claim1_resolve_build [97, 10, 98, 10]).2.1 1 (by decide),
    (claim1_resolve_build [97, 10, 98, 10]).2.2 0 1 (by decide) (by decide) (by decide)⟩

/-- C2: the line-start sequence built by parse begins with 0 and then
holds, in left-to-right scan order, exactly the offset immediately after
each line-terminator byte; a text with no line terminators yields exactly
`[0]`. -/
theorem claim2_build_line_starts (bytes : List Nat) :
    buildLineStarts bytes = 0 :: newlineStartsSpec bytes ∧
    ((∀ b ∈ bytes, b ≠ 10) → buildLineStarts bytes = [0]) := by
  constructor
  · have harg : (fun i => if bytes.getD i 0 = 10 then some (0 + i + 1) else none) =
        fun i => if bytes.getD i 0 = 10 then some (i + 1) else none := by
      funext i
      by_cases h : bytes.getD i 0 = 10
      · rw [if_pos h, if_pos h]
        congr 1
        omega
      · rw [if_neg h, if_neg h]
    rw [buildLineStarts, newlineStartsSpec, lineStartsAux_eq_spec, harg]
  · intro h
    rw [buildLineStarts, lineStartsAux_eq_nil bytes 0 h]

/-- C2 witness: the terminator-free text `"ab"` builds `[0]`, and
`"a\n"` builds `0` followed by the spec-side scan `[2]`. -/
theorem claim2_build_line_starts_witness :
    buildLineStarts [97, 98] = [0] ∧
    buildLineStarts [97, 10] = 0 :: newlineStartsSpec [97, 10] :=
  ⟨(claim2_build_line_starts [97, 98]).2 (by decide),
    (claim2_build_line_starts [97, 10]).1⟩

/-- C4: a null input pointer or invalid UTF-8 yields an error-state parse
result (diagnostic string present, zero entries, null entries pointer,
null line-offsets array), and every parse result is in exactly one of the
ok/error states, whatever the external tokenizer returns. -/
theorem claim4_parse_error_state (tok : List Char → ParseOptions → List Entry)
    (opts : ShelterParseOptions) :
    (∀ input, (input = none ∨ ∃ bytes, input = some bytes ∧ utf8Decode bytes = none) →
      errState (shelter_parse tok input opts)) ∧
    (∀ input,
      (okState (shelter_parse tok input opts) ∧ ¬ errState (shelter_parse tok input opts)) ∨
      (errState (shelter_parse tok input opts) ∧ ¬ okState (shelter_parse tok input opts))) := by
  have herr : ∀ msg, errState (ShelterResultC.err msg) := by
    intro msg
    refine ⟨?_, rfl, rfl, rfl, rfl⟩
    simp [ShelterResultC.err]
  constructor
  · intro input h
    rcases h with h | ⟨bytes, hb, hdec⟩
    · subst h
      exact herr _
    · subst hb
      simp only [shelter_parse]
      rw [hdec]
      exact herr _
  · intro input
    cases input with
    | none =>
      right
      refine ⟨herr _, ?_⟩
      intro hok
      simp [shelter_parse, okState, ShelterResultC.err] at hok
    | some bytes =>
      cases hdec : utf8Decode bytes with
      | none =>
        right
        simp only [shelter_parse]
        rw [hdec]
        refine ⟨herr _, ?_⟩
        intro hok
        simp [okState, ShelterResultC.err] at hok
      | some s =>
        left
        simp only [shelter_parse]
        rw [hdec]
        constructor
        · simp [okState, ShelterResultC.ok]
        · intro herr'
          simp [errState, ShelterResultC.ok] at herr'

/-- C4 witness: the invalid UTF-8 input `[255]` produces an error-state
result, and the valid input `[65]` produces a result in exactly one of the
two states. -/
theorem claim4_parse_error_state_witness :
    errState (shelter_parse (fun _ _ => []) (some [255]) ⟨1, 1⟩) ∧
    ((okState (shelter_parse (fun _ _ => []) (some [65]) ⟨1, 1⟩) ∧
        ¬ errState (shelter_parse (fun _ _ => []) (some [65]) ⟨1, 1⟩)) ∨
      (errState (shelter_parse (fun _ _ => []) (some [65]) ⟨1, 1⟩) ∧
        ¬ okState (shelter_parse (fun _ _ => []) (some [65]) ⟨1, 1⟩))) :=
  ⟨(claim4_parse_error_state (fun _ _ => []) ⟨1, 1⟩).1 (some [255])
      (Or.inr ⟨[255], rfl, by decide⟩),
    (claim4_parse_error_state (fun _ _ => []) ⟨1, 1⟩).2 (some [65])⟩

/-- C5: release is a no-op on a null handle; on a non-null handle it
reclaims the container exactly once, the entries array iff its pointer is
non-null and the recorded count is nonzero, the line-offsets array iff its
pointer is non-null and the recorded line count is nonzero, the error
string iff it is non-null, and each freed entry's two owned strings
exactly once each (when their pointers are non-null); when the entries
array is null or empty no entry string is touched. -/
theorem claim5_free_result_reclaims (r : RawResult) :
    shelter_free_result none = [] ∧
    (shelter_free_result (some r)).count FreeAction.container = 1 ∧
    (FreeAction.entriesArray ∈ shelter_free_result (some r) ↔
      r.entriesNull = false ∧ 0 < r.count) ∧
    (FreeAction.lineOffsetsArray ∈ shelter_free_result (some r) ↔
      r.lineOffsetsNull = false ∧ 0 < r.line_count) ∧
    (FreeAction.errorString ∈ shelter_free_result (some r) ↔ r.errorNull = false) ∧
    (∀ i, r.entriesNull = false → i < r.count → i < r.entriesMem.length →
      (shelter_free_result (some r)).count (FreeAction.keyString i) =
        (if (r.entriesMem.getD i ⟨true, true⟩).keyNull then 0 else 1) ∧
      (shelter_free_result (some r)).count (FreeAction.valueString i) =
        (if (r.entriesMem.getD i ⟨true, true⟩).valueNull then 0 else 1)) ∧
    (r.entriesNull = true ∨ r.count = 0 →
      ∀ i, FreeAction.keyString i ∉ shelter_free_result (some r) ∧
        FreeAction.valueString i ∉ shelter_free_result (some r)) := by
  have hshape : ∀ a, a ∈ freeEntries (r.entriesMem.take r.count) 0 →
      ∃ i, a = FreeAction.keyString i ∨ a = FreeAction.valueString i := by
    intro a ha
    obtain ⟨i, _, hor⟩ := mem_freeEntries_shape _ 0 a ha
    exact ⟨i, hor⟩
  have hAmem : ∀ a, a ∈ (if ¬r.entriesNull ∧ 0 < r.count then
      freeEntries (r.entriesMem.take r.count) 0 ++ [FreeAction.entriesArray] else []) →
      a = FreeAction.entriesArray ∨
        ∃ i, a = FreeAction.keyString i ∨ a = FreeAction.valueString i := by
    intro a ha
    by_cases hc : ¬r.entriesNull ∧ 0 < r.count
    · rw [if_pos hc] at ha
      rcases List.mem_append.mp ha with h' | h'
      · exact Or.inr (hshape a h')
      · exact Or.inl (List.mem_singleton.mp h')
    · rw [if_neg hc] at ha
      simp at ha
  have hBmem : ∀ a, a ∈ (if ¬r.lineOffsetsNull ∧ 0 < r.line_count then
      [FreeAction.lineOffsetsArray] else []) → a = FreeAction.lineOffsetsArray := by
    intro a ha
    by_cases hc : ¬r.lineOffsetsNull ∧ 0 < r.line_count
    · rw [if_pos hc] at ha
      exact List.mem_singleton.mp ha
    · rw [if_neg hc] at ha
      simp at ha
  have hCmem : ∀ a, a ∈ (if ¬r.errorNull then [FreeAction.errorString] else []) →
      a = FreeAction.errorString := by
    intro a ha
    by_cases hc : ¬r.errorNull
    · rw [if_pos hc] at ha
      exact List.mem_singleton.mp ha
    · rw [if_neg hc] at ha
      simp at ha
  refine ⟨rfl, ?_, ?_, ?_, ?_, ?_, ?_⟩
  · rw [shelter_free_result]
    simp only [List.count_append]
    have h1 : (if ¬r.entriesNull ∧ 0 < r.count then
        freeEntries (r.entriesMem.take r.count) 0 ++ [FreeAction.entriesArray]
        else []).count FreeAction.container = 0 := by
      rw [List.count_eq_zero]
      intro hmem
      have hsplit := hAmem _ hmem
      rcases hsplit with h | ⟨i, h | h⟩ <;> simp at h
    have h2 : (if ¬r.lineOffsetsNull ∧ 0 < r.line_count then [FreeAction.lineOffsetsArray]
        else []).count FreeAction.container = 0 := by
      rw [List.count_eq_zero]
      intro hmem
      have := hBmem _ hmem
      simp at this
    have h3 : (if ¬r.errorNull then [FreeAction.errorString]
        else []).count FreeAction.container = 0 := by
      rw [List.count_eq_zero]
      intro hmem
      have := hCmem _ hmem
      simp at this
    rw [h1, h2, h3]
    simp [List.count_cons]
  · rw [shelter_free_result]
    simp only [List.mem_append]
    constructor
    · intro h
      rcases h with ((h | h) | h) | h
      · by_cases hc : ¬r.entriesNull ∧ 0 < r.count
        · refine ⟨?_, hc.2⟩
          rcases hc with ⟨hn, _⟩
          cases hne : r.entriesNull
          · rfl
          · exact absurd hne hn
        · rw [if_neg hc] at h
          simp at h
      · have := hBmem _ h
        simp at this
      · have := hCmem _ h
        simp at this
      · simp at h
    · intro ⟨hn, hcnt⟩
      left; left; left
      rw [if_pos ⟨by rw [hn]; exact Bool.false_ne_true, hcnt⟩]
      simp
  · rw [shelter_free_result]
    simp only [List.mem_append]
    constructor
    · intro h
      rcases h with ((h | h) | h) | h
      · have hsplit := hAmem _ h
        rcases hsplit with h' | ⟨i, h' | h'⟩ <;> simp at h'
      · by_cases hc : ¬r.lineOffsetsNull ∧ 0 < r.line_count
        · refine ⟨?_, hc.2⟩
          rcases hc with ⟨hn, _⟩
          cases hne : r.lineOffsetsNull
          · rfl
          · exact absurd hne hn
        · rw [if_neg hc] at h
          simp at h
      · have := hCmem _ h
        simp at this
      · simp at h
    · intro ⟨hn, hcnt⟩
      left; left; right
      rw [if_pos ⟨by rw [hn]; exact Bool.false_ne_true, hcnt⟩]
      simp
  · rw [shelter_free_result]
    simp only [List.mem_append]
    constructor
    · intro h
      rcases h with ((h | h) | h) | h
      · have hsplit := hAmem _ h
        rcases hsplit with h' | ⟨i, h' | h'⟩ <;> simp at h'
      · have := hBmem _ h
        simp at this
      · by_cases hc : ¬r.errorNull
        · cases hne : r.errorNull
          · rfl
          · exact absurd hne hc
        · rw [if_neg hc] at h
          simp at h
      · simp at h
    · intro hn
      left; right
      rw [if_pos (by rw [hn]; exact Bool.false_ne_true)]
      simp
  · intro i hn hcnt hmem
    have hc : ¬r.entriesNull ∧ 0 < r.count :=
      ⟨by rw [hn]; exact Bool.false_ne_true, by omega⟩
    rw [shelter_free_result, if_pos hc]
    simp only [List.count_append]
    have hklen : i < (r.entriesMem.take r.count).length := by
      rw [List.length_take]
      omega
    have hkey := count_freeEntries_key (r.entriesMem.take r.count) 0 i hklen
    have hval := count_freeEntries_value (r.entriesMem.take r.count) 0 i hklen
    rw [Nat.zero_add] at hkey hval
    rw [getD_take_eq _ _ _ _ hcnt hmem] at hkey hval
    have h2k : (if ¬r.lineOffsetsNull ∧ 0 < r.line_count then [FreeAction.lineOffsetsArray]
        else []).count (FreeAction.keyString i) = 0 := by
      rw [List.count_eq_zero]
      intro hm
      have := hBmem _ hm
      simp at this
    have h2v : (if ¬r.lineOffsetsNull ∧ 0 < r.line_count then [FreeAction.lineOffsetsArray]
        else []).count (FreeAction.valueString i) = 0 := by
      rw [List.count_eq_zero]
      intro hm
      have := hBmem _ hm
      simp at this
    have h3k : (if ¬r.errorNull then [FreeAction.errorString]
        else []).count (FreeAction.keyString i) = 0 := by
      rw [List.count_eq_zero]
      intro hm
      have := hCmem _ hm
      simp at this
    have h3v : (if ¬r.errorNull then [FreeAction.errorString]
        else []).count (FreeAction.valueString i) = 0 := by
      rw [List.count_eq_zero]
      intro hm
      have := hCmem _ hm
      simp at this
    constructor
    · rw [hkey, h2k, h3k]
      simp [List.count_cons]
    · rw [hval, h2v, h3v]
      simp [List.count_cons]
  · intro h i
    have hne : ¬(¬r.entriesNull ∧ 0 < r.count) := by
      rcases h with h | h
      · intro ⟨hn, _⟩
        exact hn h
      · intro ⟨_, hc⟩
        omega
    rw [shelter_free_result, if_neg hne]
    constructor <;>
      · intro hmem
        simp only [List.nil_append, List.mem_append] at hmem
        rcases hmem with (h' | h') | h'
        · have := hBmem _ h'
          simp at this
        · have := hCmem _ h'
          simp at this
        · simp at h'

/-- C5 witness: a handle with two entries (the second with a null value
pointer), a null error string and a populated line-offsets array is
reclaimed exactly as described; a null handle reclaims nothing. -/
theorem claim5_free_result_reclaims_witness :
    shelter_free_result none = [] ∧
    (shelter_free_result
        (some ⟨false, [⟨false, false⟩, ⟨false, true⟩], 2, false, 3, true⟩)).count
      (FreeAction.valueString 1) = 0 ∧
    (shelter_free_result
        (some ⟨false, [⟨false, false⟩, ⟨false, true⟩], 2, false, 3, true⟩)).count
      (FreeAction.keyString 1) = 1 :=
  ⟨(claim5_free_result_reclaims ⟨false, [⟨false, false⟩, ⟨false, true⟩], 2, false, 3, true⟩).1,
    by
      have h := (claim5_free_result_reclaims
        ⟨false, [⟨false, false⟩, ⟨false, true⟩], 2, false, 3, true⟩).2.2.2.2.2.1
        1 rfl (by decide) (by decide)
      simpa using h.2,
    by
      have h := (claim5_free_result_reclaims
        ⟨false, [⟨false, false⟩, ⟨false, true⟩], 2, false, 3, true⟩).2.2.2.2.2.1
        1 rfl (by decide) (by decide)
      simpa using h.1⟩

/-- C8: tokenizer comment items and error items are dropped and never
appear in the returned entry sequence; only pair items produce entries,
one entry per pair, in tokenizer output order. -/
theorem claim8_comments_errors_dropped (parsed : List Entry) (line_starts : List Nat) :
    convertEntries parsed line_starts =
      (pairItems parsed).map fun kv => entryOfPair kv line_starts := by
  induction parsed with
  | nil => rfl
  | cons e rest ih =>
    cases e with
    | pair kv => simp [convertEntries, pairItems, List.filterMap_cons, ih]
    | comment t => simpa [convertEntries, pairItems, List.filterMap_cons] using ih
    | error t => simpa [convertEntries, pairItems, List.filterMap_cons] using ih

/-- C9: an entry's `value_end_line` is at least its `line_number` whenever
both spans are present (the key starting no later than the value span's
last byte, as the tokenizer guarantees), and equals `line_number` when the
value span is absent. -/
theorem claim9_value_end_line_invariant (line_starts : List Nat) (kv : KeyValuePair)
    (hs : List.Sorted (· < ·) line_starts) :
    (kv.value_span = none →
      (entryOfPair kv line_starts).value_end_line =
        (entryOfPair kv line_starts).line_number) ∧
    (∀ ks vs, kv.key_span = some ks → kv.value_span = some vs →
      ks.startOffset ≤ vs.endOffset - 1 →
      (entryOfPair kv line_starts).line_number ≤
        (entryOfPair kv line_starts).value_end_line) := by
  constructor
  · intro h
    simp [entryOfPair, h, ShelterEntry.from_korni]
  · intro ks vs hk hv hle
    simp only [entryOfPair, hk, hv, ShelterEntry.from_korni]
    exact offset_to_line_mono hs hle

/-- C9 witness: over line starts `[0, 2]` and a pair whose key span starts
at offset 0 and whose value span ends at offset 3, the entry's
`value_end_line` is at least its `line_number`; dropping the value span
makes the two equal. -/
theorem claim9_value_end_line_invariant_witness :
    (entryOfPair ⟨[⟨75, by decide⟩], [⟨86, by decide⟩], some ⟨0, 1⟩, some ⟨2, 3⟩,
        QuoteType.none, false, false⟩ [0, 2]).line_number ≤
      (entryOfPair ⟨[⟨75, by decide⟩], [⟨86, by decide⟩], some ⟨0, 1⟩, some ⟨2, 3⟩,
        QuoteType.none, false, false⟩ [0, 2]).value_end_line ∧
    (entryOfPair ⟨[⟨75, by decide⟩], [⟨86, by decide⟩], some ⟨0, 1⟩, none,
        QuoteType.none, false, false⟩ [0, 2]).value_end_line =
      (entryOfPair ⟨[⟨75, by decide⟩], [⟨86, by decide⟩], some ⟨0, 1⟩, none,
        QuoteType.none, false, false⟩ [0, 2]).line_number :=
  ⟨(claim9_value_end_line_invariant [0, 2] _ (by decide)).2 ⟨0, 1⟩ ⟨2, 3⟩ rfl rfl (by decide),
    (claim9_value_end_line_invariant [0, 2] _ (by decide)).1 rfl⟩

/-- C3: partial masking preserves the first `show_start` and last
`show_end` characters verbatim and replaces every character between with
the mask character; when the masked middle would be shorter than
`min_mask`, or the shown windows cover the whole string, the result is
the full mask; and the spec's example
`mask_partial("abcdefgh", '*', 2, 2, 3) = "ab****gh"` holds. -/
theorem claim3_mask_partial_spec (s : List Char) (c : Char) (ss se mm : Nat) :
    (s.length - ss - se < mm ∨ ss + se ≥ s.length →
      mask_partial s c ss se mm none = mask_full s c none) ∧
    (¬(s.length - ss - se < mm ∨ ss + se ≥ s.length) →
      ( mask_partial s c ss se mm none).length = s.length ∧
      (∀ i, i < ss →
        ( mask_partial s c ss se mm none).getD i 'A' = s.getD i 'A') ∧
      (∀ i, s.length - se ≤ i → i < s.length →
        ( mask_partial s c ss se mm none).getD i 'A' = s.getD i 'A') ∧
      (∀ i, ss ≤ i → i < s.length - se →
        ( mask_partial s c ss se mm none).getD i 'A' = c)) ∧
    mask_partial (String.toList "abcdefgh") '*' 2 2 3 none =
      String.toList "ab****gh" := by
  refine ⟨?_, ?_, by decide⟩
  · intro h
    rw [ mask_partial, if_pos (by omega)]
  · intro h
    have hcond : mm ≤ s.length - ss - se ∧ ss + se < s.length := by
      constructor <;> omega
    obtain ⟨hmm, hwin⟩ := hcond
    have hmask : mask_partial s c ss se mm none =
        (s.take ss ++ List.replicate (s.length - ss - se) c) ++
          s.drop (s.length - se) := by
      rw [ mask_partial, if_neg (by omega)]
    have hlen1 : (s.take ss).length = ss := by
      rw [List.length_take]
      omega
    have hlen2 : (List.replicate (s.length - ss - se) c).length = s.length - ss - se :=
      List.length_replicate _ _
    have hlen12 : (s.take ss ++ List.replicate (s.length - ss - se) c).length =
        s.length - se := by
      rw [List.length_append, hlen1, hlen2]
      omega
    have hlen3 : (s.drop (s.length - se)).length = se := by
      rw [List.length_drop]
      omega
    refine ⟨?_, ?_, ?_, ?_⟩
    · rw [hmask, List.length_append, hlen12, hlen3]
      omega
    · intro i hi
      rw [hmask, getD_append_left _ _ _ _ (by omega),
        getD_append_left _ _ _ _ (by omega),
        getD_take_eq s ss i 'A' hi (by omega)]
    · intro i hi1 hi2
      rw [hmask, getD_append_right _ _ _ _ (by omega) (by rw [hlen12, hlen3]; omega),
        hlen12, getD_drop_eq _ _ _ _ (by omega)]
      congr 1
      omega
    · intro i hi1 hi2
      rw [hmask, getD_append_left _ _ _ _ (by rw [hlen12]; omega),
        getD_append_right _ _ _ _ (by omega) (by rw [hlen1, hlen2]; omega),
        hlen1, getD_replicate_eq _ _ _ _ (by omega)]

/-- C3 witness: on `"abcdefgh"` with windows 2/2 and minimum mask 3 the
shown characters survive and the middle is masked; `"ab"` falls back to
the full mask. -/
theorem claim3_mask_partial_spec_witness :
    ( mask_partial (String.toList "abcdefgh") '*' 2 2 3 none).getD 0 'A' =
      (String.toList "abcdefgh").getD 0 'A' ∧
    ( mask_partial (String.toList "abcdefgh") '*' 2 2 3 none).getD 3 'A' = '*' ∧
    ( mask_partial (String.toList "abcdefgh") '*' 2 2 3 none).getD 7 'A' =
      (String.toList "abcdefgh").getD 7 'A' ∧
    mask_partial (String.toList "ab") '*' 2 2 3 none =
      mask_full (String.toList "ab") '*' none :=
  ⟨((claim3_mask_partial_spec (String.toList "abcdefgh") '*' 2 2 3).2.1
      (by decide)).2.1 0 (by decide),
    ((claim3_mask_partial_spec (String.toList "abcdefgh") '*' 2 2 3).2.1
      (by decide)).2.2.2 3 (by decide) (by decide),
    ((claim3_mask_partial_spec (String.toList "abcdefgh") '*' 2 2 3).2.1
      (by decide)).2.2.1 7 (by decide) (by decide),
    (claim3_mask_partial_spec (String.toList "ab") '*' 2 2 3).1 (by decide)⟩

/-- C6: fixed-length masking returns exactly `output_len` mask characters
when `output_len` is nonzero, independent of the input, and falls back to
the input's character length when `output_len = 0`; the spec's two
examples hold. -/
theorem claim6_mask_fixed_spec (s : List Char) (c : Char) (n : Nat) :
    (n ≠ 0 → mask_fixed s c n = List.replicate n c ∧ (mask_fixed s c n).length = n) ∧
    (n = 0 → mask_fixed s c n = List.replicate s.length c ∧
      (mask_fixed s c n).length = s.length) ∧
    mask_fixed (String.toList "secret") '*' 4 = String.toList "****" ∧
    mask_fixed (String.toList "secret") '*' 0 = String.toList "******" := by
  refine ⟨?_, ?_, by decide, by decide⟩
  · intro hn
    rw [mask_fixed, if_neg hn]
    exact ⟨rfl, List.length_replicate _ _⟩
  · intro hn
    rw [mask_fixed, if_pos hn]
    exact ⟨rfl, List.length_replicate _ _⟩

/-- C6 witness: `mask_fixed "secret" '*' 4` is four stars and
`mask_fixed "secret" '*' 0` has the input's six-character length. -/
theorem claim6_mask_fixed_spec_witness :
    mask_fixed (String.toList "secret") '*' 4 = List.replicate 4 '*' ∧
    (mask_fixed (String.toList "secret") '*' 0).length =
      (String.toList "secret").length :=
  ⟨((claim6_mask_fixed_spec (String.toList "secret") '*' 4).1 (by decide)).1,
    ((claim6_mask_fixed_spec (String.toList "secret") '*' 0).2.1 rfl).2⟩

/-- C7: full masking preserves the character count (Unicode scalar
values, so multi-byte characters are replaced atomically, one output
character per input character) and every output character is the mask
character. -/
theorem claim7_mask_full_chars (s : List Char) (c : Char) :
    (mask_full s c none).length = s.length ∧
    mask_full s c none = List.replicate s.length c := by
  constructor
  · rw [mask_full]
    exact List.length_map s _
  · rw [mask_full]
    induction s with
    | nil => rfl
    | cons x rest ih =>
      rw [List.map_cons, List.length_cons, List.replicate_succ, ih]

/-- C10: each boundary masking function returns the null absence sentinel
on a null input pointer, on invalid UTF-8, and whenever the masked output
would contain a NUL byte — in particular when any nonempty valid input is
masked with the NUL mask character. -/
theorem claim10_nul_masked_output_null (mc ss se mm n : Nat)
    (opts : ShelterMaskOptions) (bytes : List Nat) (s : List Char) :
    (shelter_mask_full none mc = none ∧
      shelter_mask_partial none mc ss se mm = none ∧
      shelter_mask_fixed none mc n = none ∧
      shelter_mask_value none opts = none) ∧
    (utf8Decode bytes = none →
      shelter_mask_full (some bytes) mc = none ∧
      shelter_mask_partial (some bytes) mc ss se mm = none ∧
      shelter_mask_fixed (some bytes) mc n = none ∧
      shelter_mask_value (some bytes) opts = none) ∧
    (utf8Decode bytes = some s →
      ((mask_full s (byteChar mc) none).any (fun x => x.toNat == 0) = true →
        shelter_mask_full (some bytes) mc = none) ∧
      (( mask_partial s (byteChar mc) ss se mm none).any (fun x => x.toNat == 0) = true →
        shelter_mask_partial (some bytes) mc ss se mm = none) ∧
      ((mask_fixed s (byteChar mc) n).any (fun x => x.toNat == 0) = true →
        shelter_mask_fixed (some bytes) mc n = none) ∧
      ((mask_value s opts).any (fun x => x.toNat == 0) = true →
        shelter_mask_value (some bytes) opts = none)) ∧
    (utf8Decode bytes = some s → s ≠ [] →
      shelter_mask_full (some bytes) 0 = none ∧
      shelter_mask_partial (some bytes) 0 ss se mm = none ∧
      shelter_mask_fixed (some bytes) 0 n = none ∧
      (opts.mask_char = 0 → shelter_mask_value (some bytes) opts = none)) := by
  refine ⟨⟨rfl, rfl, rfl, rfl⟩, ?_, ?_, ?_⟩
  · intro hdec
    refine ⟨?_, ?_, ?_, ?_⟩
    · simp only [shelter_mask_full]
      rw [hdec]
    · simp only [ shelter_mask_partial]
      rw [hdec]
    · simp only [shelter_mask_fixed]
      rw [hdec]
    · simp only [shelter_mask_value]
      rw [hdec]
  · intro hdec
    refine ⟨?_, ?_, ?_, ?_⟩
    · intro hany
      simp only [shelter_mask_full]
      rw [hdec]
      exact cStringNew_eq_none hany
    · intro hany
      simp only [ shelter_mask_partial]
      rw [hdec]
      exact cStringNew_eq_none hany
    · intro hany
      simp only [shelter_mask_fixed]
      rw [hdec]
      exact cStringNew_eq_none hany
    · intro hany
      simp only [shelter_mask_value]
      rw [hdec]
      exact cStringNew_eq_none hany
  · intro hdec hne
    refine ⟨?_, ?_, ?_, ?_⟩
    · simp only [shelter_mask_full]
      rw [hdec]
      exact cStringNew_eq_none (byteChar_zero ▸ mask_full_nul hne)
    · simp only [ shelter_mask_partial]
      rw [hdec]
      exact cStringNew_eq_none (byteChar_zero ▸ mask_partial_nul ss se mm hne)
    · simp only [shelter_mask_fixed]
      rw [hdec]
      exact cStringNew_eq_none (byteChar_zero ▸ mask_fixed_nul n hne)
    · intro hmc
      simp only [shelter_mask_value]
      rw [hdec]
      exact cStringNew_eq_none (mask_value_nul opts hne hmc)

/-- C10 witness: masking the nonempty valid input `"A"` (byte `[65]`) with
the NUL mask character yields the null sentinel through all four boundary
functions; a null pointer and the invalid byte `[255]` also yield null. -/
theorem claim10_nul_masked_output_null_witness :
    shelter_mask_full (some [65]) 0 = none ∧
    shelter_mask_partial (some [65]) 0 1 1 1 = none ∧
    shelter_mask_fixed (some [65]) 0 2 = none ∧
    shelter_mask_value (some [65]) ⟨0, 0, 1, 0, 0, 3⟩ = none ∧
    shelter_mask_full none 7 = none ∧
    shelter_mask_fixed (some [255]) 7 2 = none := by
  have h := claim10_nul_masked_output_null 7 1 1 1 2 ⟨0, 0, 1, 0, 0, 3⟩ [65]
    (String.toList "A")
  have h4 := h.2.2.2 (by decide) (by decide)
  have hinvalid := claim10_nul_masked_output_null 7 1 1 1 2 ⟨0, 0, 1, 0, 0, 3⟩ [255]
    (String.toList "A")
  exact ⟨h4.1, h4.2.1, h4.2.2.1, h4.2.2.2 rfl, h.1.1,
    (hinvalid.2.1 (by decide)).2.2.1⟩
